import Mathlib

/-!
Verification development for the telegram channel scraper
(`src/main.go` and the refactored variant `src/unnamed/part_000`).

The program repeatedly captures the list of visible post texts from a
rendered channel page, deduplicates them through an in-memory
`map[string]bool` (`postSet`), and appends each novel text as a JSON line
`\x7b"text": ...\x7d` followed by `"\n"` to an append-only output file, until a
wall-clock deadline passes.

Strings are modelled as `List Char` (Unicode scalar values) where byte-level
facts matter (the serialised file), and as `String` elsewhere.  Machine time
is modelled as `Nat` ticks; each loop iteration advances time by the
duration of its `chromedp.Run` call (scroll + sleep + evaluate) plus item
processing, supplied as an oracle.  Fallible operations (the chromedp calls,
the per-item marshal/write/newline sequence) are driven by explicit oracles.
-/

/-! ## Go `encoding/json` string escaping

`json.Marshal(Post{Text: content})` produces `\x7b"text":"<escaped>"\x7d`
where `<escaped>` is the Go JSON encoding of the string: `"`, `\`, newline,
carriage return and tab get two-character escapes; other control characters
(code point < 0x20), the HTML-sensitive `<`, `>`, `&`, and U+2028/U+2029 get
`\uXXXX` escapes with four lowercase hex digits; every other scalar value is
emitted verbatim. -/

/-- Lowercase hexadecimal digit character for `n < 16` (as Go's encoder emits). -/
def hexDigitChar (n : Nat) : Char :=
  if n < 10 then Char.ofNat (48 + n) else Char.ofNat (87 + n)

/-- Four lowercase hex digits of a code point, most significant first. -/
def toHex4 (n : Nat) : List Char :=
  [hexDigitChar (n / 4096 % 16), hexDigitChar (n / 256 % 16),
   hexDigitChar (n / 16 % 16), hexDigitChar (n % 16)]

/-- Whether Go's JSON encoder replaces this character by a `\uXXXX` escape:
control characters without a short escape, the HTML-escaped `<`, `>`, `&`,
and the line separators U+2028/U+2029. -/
def needsUEscape (c : Char) : Bool :=
  (decide (c.toNat < 32) || c == '<' || c == '>' || c == '&' ||
   decide (c.toNat = 8232) || decide (c.toNat = 8233))

/-- Go JSON escape of one character. -/
def escapeChar (c : Char) : List Char :=
  if c = '"' then ['\\', '"']
  else if c = '\\' then ['\\', '\\']
  else if c = '\n' then ['\\', 'n']
  else if c = '\r' then ['\\', 'r']
  else if c = '\t' then ['\\', 't']
  else if needsUEscape c then '\\' :: 'u' :: toHex4 c.toNat
  else [c]

/-- Go JSON escape of a string (scalar value by scalar value). -/
def escapeString : List Char → List Char
  | [] => []
  | c :: t => escapeChar c ++ escapeString t

/-- `json.Marshal(Post{Text: t})`: the serialised record
`\x7b"text":"<escaped t>"\x7d` (src/main.go:88, src/unnamed/part_000:184). -/
def marshalPost (t : List Char) : List Char :=
  "\x7b\"text\":\"".data ++ escapeString t ++ "\"\x7d".data

/-- One `writePostToFile`-style append per accepted text: the marshalled
record followed by the `"\n"` separator, concatenated in append order
(src/main.go:94-103, src/unnamed/part_000:183-196). -/
def renderFile : List (List Char) → List Char
  | [] => []
  | t :: rest => (marshalPost t ++ ['\n']) ++ renderFile rest

/-- Split a character sequence at every newline (the reader's line-by-line
view of the output file).  `splitNl l` always has one more element than the
number of newlines in `l`. -/
def splitNl : List Char → List (List Char)
  | [] => [[]]
  | c :: t =>
    if c = '\n' then [] :: splitNl t
    else
      match splitNl t with
      | [] => [[c]]
      | h :: r => (c :: h) :: r

/-! ## A JSON record reader

`parsePostLine` inverts `marshalPost`: it accepts exactly one JSON object of
schema `\x7b"text": string\x7d` (as the encoder above produces it) and returns the
decoded text.  It witnesses that every line of the output file is
independently parseable. -/

/-- Numeric value of a hexadecimal digit character. -/
def hexVal (c : Char) : Option Nat :=
  if 48 ≤ c.toNat ∧ c.toNat ≤ 57 then some (c.toNat - 48)
  else if 97 ≤ c.toNat ∧ c.toNat ≤ 102 then some (c.toNat - 87)
  else if 65 ≤ c.toNat ∧ c.toNat ≤ 70 then some (c.toNat - 55)
  else none

/-- Read the body of a JSON string up to its closing quote; return the
decoded content and the remaining input after the quote. -/
def parseStringBody : List Char → Option (List Char × List Char)
  | [] => none
  | c :: t =>
    if c = '"' then some ([], t)
    else if c = '\\' then
      match t with
      | [] => none
      | e :: t2 =>
        if e = '"' then (fun p => ('"' :: p.1, p.2)) <$> parseStringBody t2
        else if e = '\\' then (fun p => ('\\' :: p.1, p.2)) <$> parseStringBody t2
        else if e = 'n' then (fun p => ('\n' :: p.1, p.2)) <$> parseStringBody t2
        else if e = 'r' then (fun p => ('\r' :: p.1, p.2)) <$> parseStringBody t2
        else if e = 't' then (fun p => ('\t' :: p.1, p.2)) <$> parseStringBody t2
        else if e = 'u' then
          match t2 with
          | a :: b :: c2 :: d :: t3 =>
            match hexVal a, hexVal b, hexVal c2, hexVal d with
            | some x, some y, some z, some w =>
              (fun p => (Char.ofNat (4096 * x + 256 * y + 16 * z + w) :: p.1, p.2)) <$>
                parseStringBody t3
            | _, _, _, _ => none
          | _ => none
        else none
    else (fun p => (c :: p.1, p.2)) <$> parseStringBody t

/-- Parse one line of the output file as a `\x7b"text": string\x7d` record. -/
def parsePostLine (l : List Char) : Option (List Char) :=
  match l with
  | '\x7b' :: '"' :: 't' :: 'e' :: 'x' :: 't' :: '"' :: ':' :: '"' :: rest =>
    match parseStringBody rest with
    | some (content, ['\x7d']) => some content
    | _ => none
  | _ => none

/-! ## Channel-name extraction

Both Go files define an `extractChannelName`; they first strip a leading
`"@"`, then a leading `"https://t.me/"`, but then diverge:
`src/main.go:139-145` takes the LAST `/`-separated segment
(`strings.Split` + `parts[len(parts)-1]`), while
`src/unnamed/part_000:84-92` takes everything AFTER THE FIRST `/`
(`strings.SplitN(s, "/", 2)` + `parts[1]`, or the whole string when no `/`
is present). -/

/-- `strings.TrimPrefix(l, pre)`: drop `pre` when it is a prefix of `l`,
otherwise return `l` unchanged. -/
def trimPre (pre l : List Char) : List Char :=
  if pre.isPrefixOf l then l.drop pre.length else l

/-- The trimming both variants perform before splitting: strip `"@"`, then
strip `"https://t.me/"`. -/
def trimmedInput (l : List Char) : List Char :=
  trimPre "https://t.me/".data (trimPre "@".data l)

/-- `strings.Split(l, "/")`: split at every slash; never empty. -/
def splitSlash : List Char → List (List Char)
  | [] => [[]]
  | c :: t =>
    if c = '/' then [] :: splitSlash t
    else
      match splitSlash t with
      | [] => [[c]]
      | h :: r => (c :: h) :: r

/-- `strings.SplitN(l, "/", 2)` in two-part form: `none` when `l` has no
slash (the split is `[l]`), otherwise `some (before, after)` for the first
slash (the split is `[before, after]`). -/
def breakSlash : List Char → Option (List Char × List Char)
  | [] => none
  | c :: t =>
    if c = '/' then some ([], t)
    else
      match breakSlash t with
      | none => none
      | some (a, b) => some (c :: a, b)

namespace MainGo

/-- `extractChannelName` of src/main.go:139-145: trim `"@"` and
`"https://t.me/"`, split on `"/"`, return the last part. -/
def extractChannelName (s : String) : String :=
  ⟨(splitSlash (trimmedInput s.data)).getLastD []⟩

end MainGo

namespace Refactored

/-- `extractChannelName` of src/unnamed/part_000:84-92: trim `"@"` and
`"https://t.me/"`, `SplitN` on `"/"` into at most two parts, return the
second part when there are two, else the whole remainder. -/
def extractChannelName (s : String) : String :=
  match breakSlash (trimmedInput s.data) with
  | some (_, rest) => ⟨rest⟩
  | none => ⟨trimmedInput s.data⟩

end Refactored

/-! ## The collection loop

State of one run of the loop.  `postSet` models the keys of the Go
`map[string]bool` in insertion order (a key is mapped to `true` exactly when
it is in the list; the code never stores `false`); `file` is the list of
texts whose three-step append (marshal, write record, write newline)
completed; `attempts` counts the per-item append attempts made so far, used
to index the write-outcome oracle. -/
structure LoopState where
  postSet : List String
  file : List String
  attempts : Nat
deriving DecidableEq, Repr

/-- The initial state: empty `postSet`, freshly created empty file
(src/main.go:57,65, src/unnamed/part_000:124,128). -/
def initState : LoopState := ⟨[], [], 0⟩

/-- `processPost` (src/unnamed/part_000:170-180), identical in effect to the
inlined loop body of src/main.go:85-104: skip a text already in `postSet`;
otherwise mark it present FIRST, then attempt marshal + write + newline.
`wOk n` tells whether the `n`-th attempted append succeeds in all three
steps; on any failure the error is logged and processing continues, the text
stays marked present and is not written. -/
def processPost (wOk : Nat → Bool) (content : String) (s : LoopState) : LoopState :=
  if content ∈ s.postSet then s
  else if wOk s.attempts then
    ⟨s.postSet ++ [content], s.file ++ [content], s.attempts + 1⟩
  else
    ⟨s.postSet ++ [content], s.file, s.attempts + 1⟩

/-- One cycle's per-item loop (`for _, content := range contentList`,
src/main.go:84-105, src/unnamed/part_000:161-165): process the captured
texts in order. -/
def processItems (wOk : Nat → Bool) (items : List String) (s : LoopState) : LoopState :=
  items.foldl (fun st c => processPost wOk c st) s

deriving instance DecidableEq for Except

/-- One iteration's external input: `dur` is the wall-clock time the
iteration consumes (dominated by the `chromedp.Sleep` inside the capture
call), `snap` the result of the reveal-and-capture `chromedp.Run` — either
an error or the ordered list of visible texts. -/
structure CycleIn where
  dur : Nat
  snap : Except String (List String)
deriving DecidableEq, Repr

/-- The captured texts of a cycle (empty when the capture errored). -/
def cycleItems (c : CycleIn) : List String :=
  match c.snap with
  | .ok l => l
  | .error _ => []

/-- The explicit Item Store `Add` of the spec contract, as the code realises
it inline (`if !postSet[content] \x7b postSet[content] = true ... \x7d`,
src/main.go:85-86, src/unnamed/part_000:171-172): insert when absent and
report whether the identity was newly added. -/
def storeAdd (s : List String) (x : String) : List String × Bool :=
  if x ∈ s then (s, false) else (s ++ [x], true)

/-- First-occurrence deduplication of a text sequence relative to the
already-seen set: the subsequence of first occurrences, in order. -/
def dedupFirst (seen : List String) : List String → List String
  | [] => []
  | x :: t => if x ∈ seen then dedupFirst seen t else x :: dedupFirst (seen ++ [x]) t

/-- The cycles the `for time.Now().Before(endTime)` loop actually starts:
the prefix of the supplied cycle inputs whose start times precede `endT`. -/
def processedCycles (endT : Nat) : List CycleIn → Nat → List CycleIn
  | cycles, now =>
    if now < endT then
      match cycles with
      | [] => []
      | c :: rest => c :: processedCycles endT rest (now + c.dur)
    else []

/-- Exit time of the `for time.Now().Before(endTime)` loop, determined by
the cycle durations alone: keep adding whole cycle durations while the
current time is before `endT`. -/
def loopExit (endT : Nat) : List Nat → Nat → Nat
  | durs, now =>
    if now < endT then
      match durs with
      | [] => now
      | d :: rest => loopExit endT rest (now + d)
    else now

namespace MainGo

/-- The collection loop of src/main.go:72-110: while before the deadline,
run the reveal-and-capture call; on error `log.Fatal` aborts the whole run
(modelled as `.error` carrying the message and the state and time at the
abort); otherwise process the captured texts and continue.  The supplied
cycle list is the oracle of iteration inputs; theorems are stated for lists
long enough to reach the deadline. -/
def collectLoop (wOk : Nat → Bool) (endT : Nat) :
    List CycleIn → Nat → LoopState → Except (String × LoopState × Nat) (LoopState × Nat)
  | cycles, now, s =>
    if now < endT then
      match cycles with
      | [] => .ok (s, now)
      | c :: rest =>
        match c.snap with
        | .error e => .error (e, s, now)
        | .ok items => collectLoop wOk endT rest (now + c.dur) (processItems wOk items s)
    else .ok (s, now)

end MainGo

namespace Refactored

/-- `collectPosts` (src/unnamed/part_000:151-167): on capture error return
the error without touching the state; otherwise process all captured texts
(per-item errors are logged inside and do not stop the iteration). -/
def collectPosts (wOk : Nat → Bool) (snap : Except String (List String))
    (s : LoopState) : Except String LoopState :=
  match snap with
  | .error e => .error ("error scraping posts: " ++ e)
  | .ok items => .ok (processItems wOk items s)

/-- The collection loop of `scrapeChannel` (src/unnamed/part_000:135-144):
while before the deadline, call `collectPosts`; an error from it is only
logged (`log.Println`) — the loop proceeds to the next iteration with the
state unchanged.  It never aborts. -/
def scrapeLoop (wOk : Nat → Bool) (endT : Nat) :
    List CycleIn → Nat → LoopState → LoopState × Nat
  | cycles, now, s =>
    if now < endT then
      match cycles with
      | [] => (s, now)
      | c :: rest =>
        scrapeLoop wOk endT rest (now + c.dur)
          (match collectPosts wOk c.snap s with
           | .error _ => s
           | .ok st => st)
    else (s, now)

end Refactored

/-- Outcome of a whole run, from the handshake on. -/
structure RunResult where
  fileCreated : Bool
  finalState : LoopState
  finalTime : Nat
  fatal : Bool
deriving DecidableEq, Repr

namespace MainGo

/-- The run of src/main.go:44-113 after configuration: the handshake
`chromedp.Run(Navigate, WaitVisible)` comes FIRST (line 44); on its failure
`log.Fatal` exits before the output file is ever created (line 65).  On
success the file is created and the collection loop runs; a capture failure
inside the loop is fatal but leaves the already-written file on disk. -/
def run (wOk : Nat → Bool) (handshake : Except String Unit)
    (start endT : Nat) (cycles : List CycleIn) : RunResult :=
  match handshake with
  | .error _ => ⟨false, initState, start, true⟩
  | .ok _ =>
    match collectLoop wOk endT cycles start initState with
    | .error (_, s, t) => ⟨true, s, t, true⟩
    | .ok (s, t) => ⟨true, s, t, false⟩

end MainGo

namespace Refactored

/-- The run of `scrapeChannel` (src/unnamed/part_000:114-148) as invoked by
`main` (line 222): the handshake comes first (line 116) and its failure is
returned before the output file is opened (line 128), which `main` turns
into `log.Fatalf`; on success the loop runs to the deadline and the
function returns `nil` — never fatally. -/
def run (wOk : Nat → Bool) (handshake : Except String Unit)
    (start endT : Nat) (cycles : List CycleIn) : RunResult :=
  match handshake with
  | .error _ => ⟨false, initState, start, true⟩
  | .ok _ =>
    let p := scrapeLoop wOk endT cycles start initState
    ⟨true, p.1, p.2, false⟩

end Refactored

/-! ## Invariants and projections used by the theorems -/

/-- The state a possibly-aborted main.go loop ends in: the state carried by
the fatal error, or the state of normal completion. -/
def resState (r : Except (String × LoopState × Nat) (LoopState × Nat)) : LoopState :=
  match r with
  | .error (_, s, _) => s
  | .ok (s, _) => s

/-- Run invariant: the file's texts form a subsequence of the store's keys,
and the store's keys are pairwise distinct. -/
def StoreInv (s : LoopState) : Prop :=
  s.file.Sublist s.postSet ∧ s.postSet.Nodup

/-- Text `x` is marked present in the store but absent from the file — the
lasting footprint of a failed append of a novel item. -/
def Lost (x : String) (s : LoopState) : Prop :=
  x ∈ s.postSet ∧ x ∉ s.file

/-- The texts the loop accepts when every append succeeds, starting from the
seen-set `seen`: the first occurrences, in first-seen order, of the items of
all cycles the deadline lets run. -/
def collectedTexts (endT : Nat) (cycles : List CycleIn) (now : Nat)
    (seen : List String) : List String :=
  dedupFirst seen ((processedCycles endT cycles now).map cycleItems).flatten

/-! ## Lemmas about the serialised file -/

lemma hexDigitChar_ne_nl (n : Nat) (h : n < 16) : hexDigitChar n ≠ '\n' := by
  have hall : ∀ m, m < 16 → hexDigitChar m ≠ '\n' := by decide
  exact hall n h

lemma nl_not_mem_toHex4 (v : Nat) : '\n' ∉ toHex4 v := by
  have h16 : (16 : Nat) > 0 := by norm_num
  simp only [toHex4, List.mem_cons, List.not_mem_nil, or_false]
  push_neg
  refine ⟨?_, ?_, ?_, ?_⟩ <;>
    exact fun h => (hexDigitChar_ne_nl _ (Nat.mod_lt _ h16) h.symm)

lemma nl_not_mem_escapeChar (c : Char) : '\n' ∉ escapeChar c := by
  unfold escapeChar
  split_ifs with h1 h2 h3 h4 h5 h6
  · decide
  · decide
  · decide
  · decide
  · decide
  · simp only [List.mem_cons]
    push_neg
    exact ⟨by decide, by decide, fun h => nl_not_mem_toHex4 _ h⟩
  · simp only [List.mem_singleton]
    exact fun h => h3 h.symm

lemma nl_not_mem_escapeString (t : List Char) : '\n' ∉ escapeString t := by
  induction t with
  | nil => simp [escapeString]
  | cons c t ih =>
    simp only [escapeString, List.mem_append]
    push_neg
    exact ⟨nl_not_mem_escapeChar c, ih⟩

lemma nl_not_mem_marshalPost (t : List Char) : '\n' ∉ marshalPost t := by
  simp only [marshalPost, List.mem_append]
  push_neg
  exact ⟨⟨by decide, nl_not_mem_escapeString t⟩, by decide⟩

lemma splitNl_append_nl (a b : List Char) (h : '\n' ∉ a) :
    splitNl (a ++ '\n' :: b) = a :: splitNl b := by
  induction a with
  | nil => simp [splitNl]
  | cons c a ih =>
    have hc : ¬(c = '\n') := fun he => h (by simp [he])
    have h' : '\n' ∉ a := fun hm => h (by simp [hm])
    rw [List.cons_append, splitNl.eq_def]
    simp only [if_neg hc]
    rw [ih h']

lemma renderFile_append (a b : List (List Char)) :
    renderFile (a ++ b) = renderFile a ++ renderFile b := by
  induction a with
  | nil => simp [renderFile]
  | cons t a ih => simp [renderFile, ih]

lemma splitNl_renderFile (ts : List (List Char)) :
    splitNl (renderFile ts) = ts.map marshalPost ++ [[]] := by
  induction ts with
  | nil => simp [renderFile, splitNl]
  | cons t rest ih =>
    have : renderFile (t :: rest) = marshalPost t ++ '\n' :: renderFile rest := by
      simp [renderFile]
    rw [this, splitNl_append_nl _ _ (nl_not_mem_marshalPost t), ih]
    simp

/-! ## Parse round trip -/

lemma hexVal_hexDigitChar (n : Nat) (h : n < 16) : hexVal (hexDigitChar n) = some n := by
  have hall : ∀ m, m < 16 → hexVal (hexDigitChar m) = some m := by decide
  exact hall n h

lemma psb_quote (l : List Char) : parseStringBody ('"' :: l) = some ([], l) := by
  rw [parseStringBody.eq_def]
  simp

lemma psb_bs_quote (l : List Char) :
    parseStringBody ('\\' :: '"' :: l) =
      (fun p => ('"' :: p.1, p.2)) <$> parseStringBody l := by
  rw [parseStringBody.eq_def]
  simp

lemma psb_bs_bs (l : List Char) :
    parseStringBody ('\\' :: '\\' :: l) =
      (fun p => ('\\' :: p.1, p.2)) <$> parseStringBody l := by
  rw [parseStringBody.eq_def]
  simp

lemma psb_bs_n (l : List Char) :
    parseStringBody ('\\' :: 'n' :: l) =
      (fun p => ('\n' :: p.1, p.2)) <$> parseStringBody l := by
  rw [parseStringBody.eq_def]
  simp

lemma psb_bs_r (l : List Char) :
    parseStringBody ('\\' :: 'r' :: l) =
      (fun p => ('\r' :: p.1, p.2)) <$> parseStringBody l := by
  rw [parseStringBody.eq_def]
  simp

lemma psb_bs_t (l : List Char) :
    parseStringBody ('\\' :: 't' :: l) =
      (fun p => ('\t' :: p.1, p.2)) <$> parseStringBody l := by
  rw [parseStringBody.eq_def]
  simp

lemma psb_bs_u (a b c d : Char) (x y z w : Nat) (l : List Char)
    (ha : hexVal a = some x) (hb : hexVal b = some y)
    (hc : hexVal c = some z) (hd : hexVal d = some w) :
    parseStringBody ('\\' :: 'u' :: a :: b :: c :: d :: l) =
      (fun p => (Char.ofNat (4096 * x + 256 * y + 16 * z + w) :: p.1, p.2)) <$>
        parseStringBody l := by
  rw [parseStringBody.eq_def]
  simp [ha, hb, hc, hd]

lemma psb_plain (c : Char) (l : List Char) (h1 : ¬c = '"') (h2 : ¬c = '\\') :
    parseStringBody (c :: l) = (fun p => (c :: p.1, p.2)) <$> parseStringBody l := by
  rw [parseStringBody.eq_def]
  simp [h1, h2]

lemma needsUEscape_lt (c : Char) (h : needsUEscape c = true) : c.toNat < 65536 := by
  simp only [needsUEscape, Bool.or_eq_true, beq_iff_eq, decide_eq_true_eq] at h
  rcases h with ((((h | h) | h) | h) | h) | h
  · omega
  · subst h; decide
  · subst h; decide
  · subst h; decide
  · omega
  · omega

lemma parseStringBody_escape (t : List Char) :
    ∀ r, parseStringBody (escapeString t ++ '"' :: r) = some (t, r) := by
  induction t with
  | nil =>
    intro r
    simpa [escapeString] using psb_quote r
  | cons c t ih =>
    intro r
    have hsplit : escapeString (c :: t) ++ '"' :: r =
        escapeChar c ++ (escapeString t ++ '"' :: r) := by
      simp [escapeString]
    rw [hsplit]
    by_cases h1 : c = '"'
    · subst h1
      rw [show escapeChar '"' = ['\\', '"'] from by decide]
      simp only [List.cons_append, List.nil_append]
      rw [psb_bs_quote, ih r]
      rfl
    · by_cases h2 : c = '\\'
      · subst h2
        rw [show escapeChar '\\' = ['\\', '\\'] from by decide]
        simp only [List.cons_append, List.nil_append]
        rw [psb_bs_bs, ih r]
        rfl
      · by_cases h3 : c = '\n'
        · subst h3
          rw [show escapeChar '\n' = ['\\', 'n'] from by decide]
          simp only [List.cons_append, List.nil_append]
          rw [psb_bs_n, ih r]
          rfl
        · by_cases h4 : c = '\r'
          · subst h4
            rw [show escapeChar '\r' = ['\\', 'r'] from by decide]
            simp only [List.cons_append, List.nil_append]
            rw [psb_bs_r, ih r]
            rfl
          · by_cases h5 : c = '\t'
            · subst h5
              rw [show escapeChar '\t' = ['\\', 't'] from by decide]
              simp only [List.cons_append, List.nil_append]
              rw [psb_bs_t, ih r]
              rfl
            · by_cases h6 : needsUEscape c = true
              · have hred : escapeChar c = '\\' :: 'u' :: toHex4 c.toNat := by
                  simp [escapeChar, h1, h2, h3, h4, h5, h6]
                rw [hred]
                have h16 : (0 : Nat) < 16 := by norm_num
                simp only [toHex4, List.cons_append, List.nil_append]
                rw [psb_bs_u _ _ _ _ _ _ _ _ _
                  (hexVal_hexDigitChar _ (Nat.mod_lt _ h16))
                  (hexVal_hexDigitChar _ (Nat.mod_lt _ h16))
                  (hexVal_hexDigitChar _ (Nat.mod_lt _ h16))
                  (hexVal_hexDigitChar _ (Nat.mod_lt _ h16)), ih r]
                have hv : c.toNat < 65536 := needsUEscape_lt c h6
                have harith : 4096 * (c.toNat / 4096 % 16) + 256 * (c.toNat / 256 % 16) +
                    16 * (c.toNat / 16 % 16) + c.toNat % 16 = c.toNat := by omega
                rw [harith, Char.ofNat_toNat]
                rfl
              · have hred : escapeChar c = [c] := by
                  simp [escapeChar, h1, h2, h3, h4, h5, h6]
                rw [hred, List.singleton_append, psb_plain c _ h1 h2, ih r]
                rfl

lemma parsePostLine_red (rest : List Char) :
    parsePostLine ('\x7b' :: '"' :: 't' :: 'e' :: 'x' :: 't' :: '"' :: ':' :: '"' :: rest) =
      (match parseStringBody rest with
       | some (content, ['\x7d']) => some content
       | _ => none) := by
  rw [parsePostLine.eq_def]
  rfl

lemma parsePostLine_marshalPost (t : List Char) :
    parsePostLine (marshalPost t) = some t := by
  have hform : marshalPost t =
      '\x7b' :: '"' :: 't' :: 'e' :: 'x' :: 't' :: '"' :: ':' :: '"' ::
        (escapeString t ++ '"' :: ['\x7d']) := by
    simp [marshalPost]
  rw [hform, parsePostLine_red, parseStringBody_escape t ['\x7d']]
  rfl

/-! ## Loop invariant lemmas -/

lemma processItems_cons (wOk : Nat → Bool) (x : String) (items : List String)
    (s : LoopState) :
    processItems wOk (x :: items) s = processItems wOk items (processPost wOk x s) := rfl

lemma processPost_mem (wOk : Nat → Bool) (x : String) (s : LoopState)
    (h : x ∈ s.postSet) : processPost wOk x s = s := by
  simp [processPost, h]

lemma inv_initState : StoreInv initState := by
  exact ⟨List.nil_sublist _, List.nodup_nil⟩

lemma inv_processPost (wOk : Nat → Bool) (c : String) (s : LoopState)
    (h : StoreInv s) : StoreInv (processPost wOk c s) := by
  obtain ⟨hsub, hnd⟩ := h
  unfold processPost
  split_ifs with h1 h2
  · exact ⟨hsub, hnd⟩
  · refine ⟨List.Sublist.append hsub (List.Sublist.refl _), ?_⟩
    simp [List.nodup_append, hnd, h1]
  · refine ⟨hsub.trans (List.sublist_append_left _ _), ?_⟩
    simp [List.nodup_append, hnd, h1]

lemma inv_processItems (wOk : Nat → Bool) (items : List String) :
    ∀ s, StoreInv s → StoreInv (processItems wOk items s) := by
  induction items with
  | nil => intro s h; simpa [processItems] using h
  | cons x t ih =>
    intro s h
    rw [processItems_cons]
    exact ih _ (inv_processPost wOk x s h)

lemma inv_collectLoop (wOk : Nat → Bool) (endT : Nat) :
    ∀ cycles now s, StoreInv s →
      StoreInv (resState (MainGo.collectLoop wOk endT cycles now s)) := by
  intro cycles
  induction cycles with
  | nil =>
    intro now s h
    by_cases hlt : now < endT <;> simp [MainGo.collectLoop, resState, hlt, h]
  | cons c rest ih =>
    intro now s h
    by_cases hlt : now < endT
    · cases hsnap : c.snap with
      | error e => simp [MainGo.collectLoop, hlt, hsnap, resState, h]
      | ok items =>
        rw [MainGo.collectLoop.eq_def]
        simp only [if_pos hlt, hsnap]
        exact ih _ _ (inv_processItems wOk items s h)
    · simp [MainGo.collectLoop, hlt, resState, h]

lemma inv_scrapeLoop (wOk : Nat → Bool) (endT : Nat) :
    ∀ cycles now s, StoreInv s →
      StoreInv (Refactored.scrapeLoop wOk endT cycles now s).1 := by
  intro cycles
  induction cycles with
  | nil =>
    intro now s h
    by_cases hlt : now < endT <;> simp [Refactored.scrapeLoop, hlt, h]
  | cons c rest ih =>
    intro now s h
    by_cases hlt : now < endT
    · rw [Refactored.scrapeLoop.eq_def]
      simp only [if_pos hlt]
      cases hsnap : c.snap with
      | error e => simpa [Refactored.collectPosts, hsnap] using ih _ _ h
      | ok items =>
        simpa [Refactored.collectPosts, hsnap] using
          ih _ _ (inv_processItems wOk items s h)
    · simp [Refactored.scrapeLoop, hlt, h]

lemma inv_sublist_facts (s : LoopState) (h : StoreInv s) :
    (∀ t ∈ s.file, t ∈ s.postSet) ∧ s.file.length ≤ s.postSet.length := by
  exact ⟨fun t ht => h.1.subset ht, h.1.length_le⟩

/-! ## Characterisation of the loop when every append succeeds -/

lemma dedupFirst_append (l1 l2 : List String) :
    ∀ seen, dedupFirst seen (l1 ++ l2) =
      dedupFirst seen l1 ++ dedupFirst (seen ++ dedupFirst seen l1) l2 := by
  induction l1 with
  | nil => intro seen; simp [dedupFirst]
  | cons x t ih =>
    intro seen
    by_cases hx : x ∈ seen
    · simp only [List.cons_append, dedupFirst, if_pos hx]
      exact ih seen
    · simp only [List.cons_append, dedupFirst, if_neg hx, List.append_eq]
      rw [ih (seen ++ [x])]
      simp [List.append_assoc]

lemma processItems_all_ok (wOk : Nat → Bool) (hw : ∀ n, wOk n = true)
    (items : List String) : ∀ p f a,
    processItems wOk items ⟨p, f, a⟩ =
      ⟨p ++ dedupFirst p items, f ++ dedupFirst p items,
       a + (dedupFirst p items).length⟩ := by
  induction items with
  | nil => intro p f a; simp [processItems, dedupFirst]
  | cons x t ih =>
    intro p f a
    rw [processItems_cons]
    by_cases hx : x ∈ p
    · rw [processPost_mem wOk x _ hx, ih]
      simp [dedupFirst, hx]
    · have hstep : processPost wOk x ⟨p, f, a⟩ = ⟨p ++ [x], f ++ [x], a + 1⟩ := by
        simp [processPost, hx, hw a]
      rw [hstep, ih]
      simp only [dedupFirst, if_neg hx, LoopState.mk.injEq]
      refine ⟨by simp, by simp, by simp only [List.length_cons]; omega⟩

lemma collectLoop_all_ok (wOk : Nat → Bool) (endT : Nat) (hw : ∀ n, wOk n = true) :
    ∀ cycles now p f a, (∀ c ∈ cycles, c.snap = .ok (cycleItems c)) →
    MainGo.collectLoop wOk endT cycles now ⟨p, f, a⟩ =
      .ok (⟨p ++ collectedTexts endT cycles now p,
            f ++ collectedTexts endT cycles now p,
            a + (collectedTexts endT cycles now p).length⟩,
           loopExit endT (cycles.map CycleIn.dur) now) := by
  intro cycles
  induction cycles with
  | nil =>
    intro now p f a _
    by_cases hlt : now < endT <;>
      simp [MainGo.collectLoop, collectedTexts, processedCycles, dedupFirst,
        loopExit, hlt]
  | cons c rest ih =>
    intro now p f a hs
    have hc : c.snap = .ok (cycleItems c) := hs c (by simp)
    have hrest : ∀ c2 ∈ rest, c2.snap = .ok (cycleItems c2) := fun c2 h2 =>
      hs c2 (by simp [h2])
    by_cases hlt : now < endT
    · rw [MainGo.collectLoop.eq_def]
      simp only [if_pos hlt, hc]
      rw [processItems_all_ok wOk hw _ p f a, ih (now + c.dur) _ _ _ hrest]
      have hco : collectedTexts endT (c :: rest) now p =
          dedupFirst p (cycleItems c) ++
            collectedTexts endT rest (now + c.dur) (p ++ dedupFirst p (cycleItems c)) := by
        simp only [collectedTexts, processedCycles, if_pos hlt, List.map_cons,
          List.flatten_cons]
        exact dedupFirst_append _ _ p
      rw [hco]
      have hle : loopExit endT ((c :: rest).map CycleIn.dur) now =
          loopExit endT (rest.map CycleIn.dur) (now + c.dur) := by
        simp [loopExit, hlt]
      rw [hle]
      refine congrArg Except.ok (Prod.ext ?_ rfl)
      simp only [LoopState.mk.injEq]
      refine ⟨by simp, by simp, by simp only [List.length_append]; omega⟩
    · simp [MainGo.collectLoop, collectedTexts, processedCycles, dedupFirst,
        loopExit, hlt]

/-! ## Exit-time lemmas -/

lemma loopExit_of_ge (endT : Nat) (durs : List Nat) (now : Nat)
    (h : ¬now < endT) : loopExit endT durs now = now := by
  cases durs <;> simp [loopExit, h]

lemma scrapeLoop_snd (wOk : Nat → Bool) (endT : Nat) :
    ∀ cycles now s, (Refactored.scrapeLoop wOk endT cycles now s).2 =
      loopExit endT (cycles.map CycleIn.dur) now := by
  intro cycles
  induction cycles with
  | nil => intro now s; by_cases hlt : now < endT <;> simp [Refactored.scrapeLoop, loopExit, hlt]
  | cons c rest ih =>
    intro now s
    by_cases hlt : now < endT
    · rw [Refactored.scrapeLoop.eq_def]
      simp only [if_pos hlt, List.map_cons]
      rw [ih]
      simp [loopExit, hlt]
    · simp [Refactored.scrapeLoop, loopExit, hlt]

lemma collectLoop_ok_time (wOk : Nat → Bool) (endT : Nat) :
    ∀ cycles now s s' t, MainGo.collectLoop wOk endT cycles now s = .ok (s', t) →
      t = loopExit endT (cycles.map CycleIn.dur) now := by
  intro cycles
  induction cycles with
  | nil =>
    intro now s s' t h
    by_cases hlt : now < endT <;>
      · simp [MainGo.collectLoop, hlt] at h
        simp [loopExit, hlt, h.2.symm]
  | cons c rest ih =>
    intro now s s' t h
    by_cases hlt : now < endT
    · rw [MainGo.collectLoop.eq_def] at h
      simp only [if_pos hlt] at h
      cases hsnap : c.snap with
      | error e => rw [hsnap] at h; simp at h
      | ok items =>
        rw [hsnap] at h
        have := ih (now + c.dur) _ _ _ h
        simp [loopExit, hlt, this]
    · simp [MainGo.collectLoop, hlt] at h
      simp [loopExit, hlt, h.2.symm]

lemma loopExit_ge (endT : Nat) :
    ∀ durs now, endT ≤ now + durs.sum → endT ≤ loopExit endT durs now := by
  intro durs
  induction durs with
  | nil =>
    intro now h
    simp only [List.sum_nil, Nat.add_zero] at h
    rw [loopExit_of_ge endT [] now (by omega)]
    exact h
  | cons d rest ih =>
    intro now h
    by_cases hlt : now < endT
    · rw [show loopExit endT (d :: rest) now = loopExit endT rest (now + d) by
        simp [loopExit, hlt]]
      exact ih (now + d) (by simp [List.sum_cons] at h; omega)
    · rw [loopExit_of_ge endT _ now hlt]; omega

lemma loopExit_lt (endT M : Nat) :
    ∀ durs now, now < endT → (∀ d ∈ durs, d ≤ M) →
      loopExit endT durs now < endT + M := by
  intro durs
  induction durs with
  | nil => intro now hlt _; simp [loopExit, hlt]; omega
  | cons d rest ih =>
    intro now hlt hM
    rw [show loopExit endT (d :: rest) now = loopExit endT rest (now + d) by
      simp [loopExit, hlt]]
    by_cases h2 : now + d < endT
    · exact ih (now + d) h2 (fun x hx => hM x (by simp [hx]))
    · rw [loopExit_of_ge endT _ _ h2]
      have : d ≤ M := hM d (by simp)
      omega

/-! ## Lost-item lemmas -/

lemma lost_processPost (wOk : Nat → Bool) (c x : String) (s : LoopState)
    (h : Lost x s) : Lost x (processPost wOk c s) := by
  obtain ⟨hp, hf⟩ := h
  unfold processPost
  split_ifs with h1 h2
  · exact ⟨hp, hf⟩
  · refine ⟨by simp [hp], ?_⟩
    simp only [List.mem_append, List.mem_singleton]
    rintro (hmem | rfl)
    · exact hf hmem
    · exact h1 hp
  · exact ⟨by simp [hp], hf⟩

lemma lost_processItems (wOk : Nat → Bool) (items : List String) :
    ∀ s x, Lost x s → Lost x (processItems wOk items s) := by
  induction items with
  | nil => intro s x h; simpa [processItems] using h
  | cons c t ih =>
    intro s x h
    rw [processItems_cons]
    exact ih _ _ (lost_processPost wOk c x s h)

lemma lost_collectLoop (wOk : Nat → Bool) (endT : Nat) :
    ∀ cycles now s x, Lost x s →
      Lost x (resState (MainGo.collectLoop wOk endT cycles now s)) := by
  intro cycles
  induction cycles with
  | nil =>
    intro now s x h
    by_cases hlt : now < endT <;> simp [MainGo.collectLoop, resState, hlt, h]
  | cons c rest ih =>
    intro now s x h
    by_cases hlt : now < endT
    · cases hsnap : c.snap with
      | error e => simp [MainGo.collectLoop, hlt, hsnap, resState, h]
      | ok items =>
        rw [MainGo.collectLoop.eq_def]
        simp only [if_pos hlt, hsnap]
        exact ih _ _ _ (lost_processItems wOk items s x h)
    · simp [MainGo.collectLoop, hlt, resState, h]

lemma lost_scrapeLoop (wOk : Nat → Bool) (endT : Nat) :
    ∀ cycles now s x, Lost x s →
      Lost x (Refactored.scrapeLoop wOk endT cycles now s).1 := by
  intro cycles
  induction cycles with
  | nil =>
    intro now s x h
    by_cases hlt : now < endT <;> simp [Refactored.scrapeLoop, hlt, h]
  | cons c rest ih =>
    intro now s x h
    by_cases hlt : now < endT
    · rw [Refactored.scrapeLoop.eq_def]
      simp only [if_pos hlt]
      cases hsnap : c.snap with
      | error e => simpa [Refactored.collectPosts, hsnap] using ih _ _ _ h
      | ok items =>
        simpa [Refactored.collectPosts, hsnap] using
          ih _ _ _ (lost_processItems wOk items s x h)
    · simp [Refactored.scrapeLoop, hlt, h]

/-! ## Split/break relation lemmas (channel-name extraction) -/

lemma splitSlash_ne_nil : ∀ l, splitSlash l ≠ [] := by
  intro l
  rw [splitSlash.eq_def]
  cases l with
  | nil => simp
  | cons c t =>
    by_cases hc : c = '/'
    · simp [hc]
    · cases hs : splitSlash t <;> simp [hc, hs]

lemma breakSlash_eq_none (l : List Char) (h : breakSlash l = none) :
    splitSlash l = [l] := by
  induction l with
  | nil => rfl
  | cons c t ih =>
    rw [breakSlash.eq_def] at h
    by_cases hc : c = '/'
    · simp [hc] at h
    · simp only [if_neg hc] at h
      cases hb : breakSlash t with
      | none =>
        rw [splitSlash.eq_def]
        simp [hc, ih hb]
      | some p => rw [hb] at h; simp at h

lemma breakSlash_eq_some (l : List Char) :
    ∀ a b, breakSlash l = some (a, b) → splitSlash l = a :: splitSlash b := by
  induction l with
  | nil => intro a b h; simp [breakSlash] at h
  | cons c t ih =>
    intro a b h
    rw [breakSlash.eq_def] at h
    by_cases hc : c = '/'
    · simp only [if_pos hc] at h
      obtain ⟨ha, hb⟩ : [] = a ∧ t = b := by
        constructor <;> · injection h with h'; cases h'; rfl
      rw [splitSlash.eq_def]
      simp [hc, ha.symm, hb]
    · simp only [if_neg hc] at h
      cases hb : breakSlash t with
      | none => rw [hb] at h; simp at h
      | some p =>
        obtain ⟨a', b'⟩ := p
        rw [hb] at h
        simp only [Option.some.injEq, Prod.mk.injEq] at h
        obtain ⟨ha, hb2⟩ := h
        rw [splitSlash.eq_def]
        simp [hc, ih a' b' hb, ← ha, ← hb2]

lemma splitSlash_eq_singleton : ∀ l x, splitSlash l = [x] → x = l := by
  intro l
  induction l with
  | nil =>
    intro x h
    simpa [splitSlash] using h
  | cons c t ih =>
    intro x h
    rw [splitSlash.eq_def] at h
    by_cases hc : c = '/'
    · simp only [if_pos hc, List.cons.injEq] at h
      exact absurd h.2 (splitSlash_ne_nil t)
    · simp only [if_neg hc] at h
      cases hs : splitSlash t with
      | nil => exact absurd hs (splitSlash_ne_nil t)
      | cons h0 r =>
        rw [hs] at h
        simp only [List.cons.injEq] at h
        obtain ⟨hx, hr⟩ := h
        have ht : splitSlash t = [h0] := by rw [hs, hr]
        rw [← hx, ih h0 ht]

/-! ## File/store agreement when no append fails -/

lemma sync_processPost (wOk : Nat → Bool) (hw : ∀ n, wOk n = true) (c : String)
    (s : LoopState) (h : s.file = s.postSet) :
    (processPost wOk c s).file = (processPost wOk c s).postSet := by
  unfold processPost
  split_ifs with h1 h2
  · exact h
  · simp [h]
  · exact absurd (hw s.attempts) h2

lemma sync_processItems (wOk : Nat → Bool) (hw : ∀ n, wOk n = true)
    (items : List String) : ∀ s, s.file = s.postSet →
      (processItems wOk items s).file = (processItems wOk items s).postSet := by
  induction items with
  | nil => intro s h; simpa [processItems] using h
  | cons x t ih =>
    intro s h
    rw [processItems_cons]
    exact ih _ (sync_processPost wOk hw x s h)

lemma sync_collectLoop (wOk : Nat → Bool) (endT : Nat) (hw : ∀ n, wOk n = true) :
    ∀ cycles now s, s.file = s.postSet →
      (resState (MainGo.collectLoop wOk endT cycles now s)).file =
        (resState (MainGo.collectLoop wOk endT cycles now s)).postSet := by
  intro cycles
  induction cycles with
  | nil =>
    intro now s h
    by_cases hlt : now < endT <;> simp [MainGo.collectLoop, resState, hlt, h]
  | cons c rest ih =>
    intro now s h
    by_cases hlt : now < endT
    · cases hsnap : c.snap with
      | error e => simp [MainGo.collectLoop, hlt, hsnap, resState, h]
      | ok items =>
        rw [MainGo.collectLoop.eq_def]
        simp only [if_pos hlt, hsnap]
        exact ih _ _ (sync_processItems wOk hw items s h)
    · simp [MainGo.collectLoop, hlt, resState, h]

lemma sync_scrapeLoop (wOk : Nat → Bool) (endT : Nat) (hw : ∀ n, wOk n = true) :
    ∀ cycles now s, s.file = s.postSet →
      (Refactored.scrapeLoop wOk endT cycles now s).1.file =
        (Refactored.scrapeLoop wOk endT cycles now s).1.postSet := by
  intro cycles
  induction cycles with
  | nil =>
    intro now s h
    by_cases hlt : now < endT <;> simp [Refactored.scrapeLoop, hlt, h]
  | cons c rest ih =>
    intro now s h
    by_cases hlt : now < endT
    · rw [Refactored.scrapeLoop.eq_def]
      simp only [if_pos hlt]
      cases hsnap : c.snap with
      | error e => simpa [Refactored.collectPosts, hsnap] using ih _ _ h
      | ok items =>
        simpa [Refactored.collectPosts, hsnap] using
          ih _ _ (sync_processItems wOk hw items s h)
    · simp [Refactored.scrapeLoop, hlt, h]

/-! ## Run-level invariant corollaries -/

lemma storeInv_mainRun (wOk : Nat → Bool) (hsk : Except String Unit)
    (start endT : Nat) (cycles : List CycleIn) :
    StoreInv (MainGo.run wOk hsk start endT cycles).finalState := by
  cases hsk with
  | error e => simpa [MainGo.run] using inv_initState
  | ok u =>
    have h := inv_collectLoop wOk endT cycles start initState inv_initState
    cases hr : MainGo.collectLoop wOk endT cycles start initState with
    | error p =>
      obtain ⟨e2, s2, t2⟩ := p
      rw [hr] at h
      simpa [MainGo.run, hr, resState] using h
    | ok p =>
      obtain ⟨s2, t2⟩ := p
      rw [hr] at h
      simpa [MainGo.run, hr, resState] using h

lemma storeInv_refacRun (wOk : Nat → Bool) (hsk : Except String Unit)
    (start endT : Nat) (cycles : List CycleIn) :
    StoreInv (Refactored.run wOk hsk start endT cycles).finalState := by
  cases hsk with
  | error e => simpa [Refactored.run] using inv_initState
  | ok u =>
    simpa [Refactored.run] using
      inv_scrapeLoop wOk endT cycles start initState inv_initState

lemma sync_mainRun (wOk : Nat → Bool) (hw : ∀ n, wOk n = true)
    (hsk : Except String Unit) (start endT : Nat) (cycles : List CycleIn) :
    (MainGo.run wOk hsk start endT cycles).finalState.file =
      (MainGo.run wOk hsk start endT cycles).finalState.postSet := by
  cases hsk with
  | error e => simp [MainGo.run, initState]
  | ok u =>
    have h := sync_collectLoop wOk endT hw cycles start initState rfl
    cases hr : MainGo.collectLoop wOk endT cycles start initState with
    | error p =>
      obtain ⟨e2, s2, t2⟩ := p
      rw [hr] at h
      simpa [MainGo.run, hr, resState] using h
    | ok p =>
      obtain ⟨s2, t2⟩ := p
      rw [hr] at h
      simpa [MainGo.run, hr, resState] using h

lemma sync_refacRun (wOk : Nat → Bool) (hw : ∀ n, wOk n = true)
    (hsk : Except String Unit) (start endT : Nat) (cycles : List CycleIn) :
    (Refactored.run wOk hsk start endT cycles).finalState.file =
      (Refactored.run wOk hsk start endT cycles).finalState.postSet := by
  cases hsk with
  | error e => simp [Refactored.run, initState]
  | ok u =>
    simpa [Refactored.run] using
      sync_scrapeLoop wOk endT hw cycles start initState rfl

/-! ## Claims -/

/-- C1 (amended): a failing reveal-and-capture call during a cycle aborts
the run fatally in src/main.go (`log.Fatal`, src/main.go:80-82): the loop
returns the error immediately, the remaining cycle inputs are irrelevant,
and the run is marked fatal.  In the refactored variant this does NOT hold:
`scrapeChannel` (src/unnamed/part_000:137-139) only logs the error returned
by `collectPosts` and continues with the next cycle, state unchanged. -/
theorem snapshot_failure_main_aborts_refactored_continues
    (wOk : Nat → Bool) (endT : Nat) (e : String) (d : Nat)
    (rest rest' : List CycleIn) (now : Nat) (s : LoopState) (h : now < endT) :
    MainGo.collectLoop wOk endT (⟨d, .error e⟩ :: rest) now s = .error (e, s, now) ∧
    MainGo.collectLoop wOk endT (⟨d, .error e⟩ :: rest) now s =
      MainGo.collectLoop wOk endT (⟨d, .error e⟩ :: rest') now s ∧
    (MainGo.run wOk (.ok ()) now endT (⟨d, .error e⟩ :: rest)).fatal = true ∧
    Refactored.scrapeLoop wOk endT (⟨d, .error e⟩ :: rest) now s =
      Refactored.scrapeLoop wOk endT rest (now + d) s := by
  refine ⟨?_, ?_, ?_, ?_⟩
  · simp [MainGo.collectLoop, h]
  · simp [MainGo.collectLoop, h]
  · simp [MainGo.run, MainGo.collectLoop, h]
  · rw [Refactored.scrapeLoop.eq_def]
    simp [h, Refactored.collectPosts]

/-- C1 (witness): concrete instance of the main.go half. -/
theorem snapshot_failure_main_aborts_witness :
    (0 : Nat) < 2 ∧
    MainGo.collectLoop (fun _ => true) 2
        [⟨1, .error "boom"⟩, ⟨1, .ok ["A"]⟩] 0 initState =
      .error ("boom", initState, 0) :=
  ⟨by decide,
   (snapshot_failure_main_aborts_refactored_continues (fun _ => true) 2 "boom" 1
     [⟨1, .ok ["A"]⟩] [] 0 initState (by decide)).1⟩

/-- C1 (counterexample): in the refactored variant a capture failure in
cycle 1 does not abort the run: cycle 2 still executes and collects "A",
and the run completes with a non-fatal outcome — contradicting the claim
that any Snapshot Source failure during a cycle aborts the entire run with
no further cycles. -/
theorem snapshot_failure_refactored_run_completes_cex :
    Refactored.run (fun _ => true) (.ok ()) 0 2
        [⟨1, .error "boom"⟩, ⟨1, .ok ["A"]⟩] =
      ⟨true, ⟨["A"], ["A"], 1⟩, 2, false⟩ := by decide

/-- C2: in every run of either variant, the texts recorded in the output
file are pairwise distinct — a text is never written twice, however often
it recurs across or within snapshots. -/
theorem file_texts_nodup (wOk : Nat → Bool) (hsk : Except String Unit)
    (start endT : Nat) (cycles : List CycleIn) :
    (MainGo.run wOk hsk start endT cycles).finalState.file.Nodup ∧
    (Refactored.run wOk hsk start endT cycles).finalState.file.Nodup := by
  have hm := storeInv_mainRun wOk hsk start endT cycles
  have hr := storeInv_refacRun wOk hsk start endT cycles
  exact ⟨hm.2.sublist hm.1, hr.2.sublist hr.1⟩

/-- C3: when every capture and every append succeeds, the run's file is
exactly the first-occurrence deduplication, in first-seen order, of the
items of all cycles started before the deadline; the reported count is the
store's size and equals the file's length. -/
theorem collect_firstSeen_order (wOk : Nat → Bool) (start endT : Nat)
    (cycles : List CycleIn) (hw : ∀ n, wOk n = true)
    (hs : ∀ c ∈ cycles, c.snap = .ok (cycleItems c)) :
    MainGo.run wOk (.ok ()) start endT cycles =
      ⟨true,
       ⟨collectedTexts endT cycles start [], collectedTexts endT cycles start [],
        (collectedTexts endT cycles start []).length⟩,
       loopExit endT (cycles.map CycleIn.dur) start, false⟩ := by
  have h := collectLoop_all_ok wOk endT hw cycles start [] [] 0 hs
  simp only [MainGo.run, show initState = (⟨[], [], 0⟩ : LoopState) from rfl, h]
  simp

/-- C3 (witness): the spec's scenario — snapshots `["A","B"]`, `["B","C"]`,
`["C"]` on three cycles before the deadline yield exactly the three lines
`\x7b"text":"A"\x7d`, `\x7b"text":"B"\x7d`, `\x7b"text":"C"\x7d`, in that order. -/
theorem collect_firstSeen_order_witness :
    (∀ c ∈ ([⟨20, .ok ["A", "B"]⟩, ⟨20, .ok ["B", "C"]⟩,
             ⟨20, .ok ["C"]⟩] : List CycleIn), c.snap = Except.ok (cycleItems c)) ∧
    MainGo.run (fun _ => true) (.ok ()) 0 60
        [⟨20, .ok ["A", "B"]⟩, ⟨20, .ok ["B", "C"]⟩, ⟨20, .ok ["C"]⟩] =
      ⟨true, ⟨["A", "B", "C"], ["A", "B", "C"], 3⟩, 60, false⟩ ∧
    renderFile (["A", "B", "C"].map String.data) =
      "\x7b\"text\":\"A\"\x7d\n\x7b\"text\":\"B\"\x7d\n\x7b\"text\":\"C\"\x7d\n".data := by
  refine ⟨by decide, ?_, by decide⟩
  rw [collect_firstSeen_order (fun _ => true) 0 60 _ (fun n => rfl) (by decide)]
  decide

/-- C4: a novel item whose append fails is marked present in the store,
left out of the file, never reprocessed (any later occurrence is a no-op),
processing continues with the remaining items, and through any further
cycles of either loop it stays marked present and permanently absent from
the file. -/
theorem write_failure_item_lost (wOk : Nat → Bool) (x : String) (s : LoopState)
    (h0 : x ∉ s.file) (h1 : x ∉ s.postSet) (h2 : wOk s.attempts = false) :
    processPost wOk x s = ⟨s.postSet ++ [x], s.file, s.attempts + 1⟩ ∧
    (∀ s2, x ∈ s2.postSet → processPost wOk x s2 = s2) ∧
    (∀ items, processItems wOk (x :: items) s =
      processItems wOk items (processPost wOk x s)) ∧
    (∀ endT cycles now,
      Lost x (resState (MainGo.collectLoop wOk endT cycles now (processPost wOk x s)))) ∧
    (∀ endT cycles now,
      Lost x (Refactored.scrapeLoop wOk endT cycles now (processPost wOk x s)).1) := by
  have hstep : processPost wOk x s = ⟨s.postSet ++ [x], s.file, s.attempts + 1⟩ := by
    simp [processPost, h1, h2]
  have hlost : Lost x (processPost wOk x s) := by
    rw [hstep]
    exact ⟨by simp, h0⟩
  exact ⟨hstep, fun s2 hm => processPost_mem wOk x s2 hm,
    fun items => processItems_cons wOk x items s,
    fun endT cycles now => lost_collectLoop wOk endT cycles now _ x hlost,
    fun endT cycles now => lost_scrapeLoop wOk endT cycles now _ x hlost⟩

/-- C4 (witness): a failing append of novel "X" marks it present, writes
nothing, and "X" stays absent from the file through a later cycle that
offers it again. -/
theorem write_failure_item_lost_witness :
    processPost (fun _ => false) "X" initState = ⟨["X"], [], 1⟩ ∧
    Lost "X" (Refactored.scrapeLoop (fun _ => false) 2
      [⟨1, .ok ["X", "Y"]⟩] 0 (processPost (fun _ => false) "X" initState)).1 := by
  have h := write_failure_item_lost (fun _ => false) "X" initState
    (by decide) (by decide) rfl
  exact ⟨h.1, h.2.2.2.2 2 [⟨1, .ok ["X", "Y"]⟩] 0⟩

/-- C5: the output file is a sequence of newline-terminated lines, one per
accepted item: each record contains no raw newline, parses back as a
`\x7b"text": string\x7d` object to exactly its text, splitting the rendered file at
newlines yields exactly the records (plus the empty tail after the final
separator), and the render of any prefix of complete appends is a prefix of
the whole render — so truncation after any complete append keeps all
earlier records intact and parseable.  The last conjunct instantiates this
to the file of an arbitrary run. -/
theorem file_lines_parseable (texts : List (List Char)) (k : Nat) (t : List Char)
    (wOk : Nat → Bool) (hsk : Except String Unit) (start endT : Nat)
    (cycles : List CycleIn) :
    '\n' ∉ marshalPost t ∧
    parsePostLine (marshalPost t) = some t ∧
    splitNl (renderFile (texts.take k)) = (texts.take k).map marshalPost ++ [[]] ∧
    renderFile (texts.take k) ++ renderFile (texts.drop k) = renderFile texts ∧
    splitNl (renderFile
        ((MainGo.run wOk hsk start endT cycles).finalState.file.map String.data)) =
      ((MainGo.run wOk hsk start endT cycles).finalState.file.map String.data).map
          marshalPost ++ [[]] := by
  refine ⟨nl_not_mem_marshalPost t, parsePostLine_marshalPost t,
    splitNl_renderFile _, ?_, splitNl_renderFile _⟩
  rw [← renderFile_append, List.take_append_drop]

/-- C6: a failed handshake makes both variants exit fatally before the
collection loop starts: no output file is created, no cycle runs, and the
state is untouched. -/
theorem handshake_failure_no_file (wOk : Nat → Bool) (start endT : Nat)
    (cycles : List CycleIn) (e : String) :
    MainGo.run wOk (.error e) start endT cycles =
      ⟨false, initState, start, true⟩ ∧
    Refactored.run wOk (.error e) start endT cycles =
      ⟨false, initState, start, true⟩ :=
  ⟨rfl, rfl⟩

/-- C7: the loop's exit time is a function of the cycle durations alone
(items and capture outcomes are irrelevant — the deadline is checked only
at cycle boundaries); the loop never exits before the deadline when the
supplied cycles reach it; once past the deadline it exits within the
duration bound of a single cycle; and the main.go loop, when it completes,
exits at the same duration-determined time. -/
theorem loop_deadline_bounds (wOk : Nat → Bool) (endT M : Nat)
    (cycles : List CycleIn) (now : Nat) (s : LoopState) :
    (Refactored.scrapeLoop wOk endT cycles now s).2 =
      loopExit endT (cycles.map CycleIn.dur) now ∧
    (endT ≤ now + (cycles.map CycleIn.dur).sum →
      endT ≤ (Refactored.scrapeLoop wOk endT cycles now s).2) ∧
    (now < endT → (∀ c ∈ cycles, c.dur ≤ M) →
      (Refactored.scrapeLoop wOk endT cycles now s).2 < endT + M) ∧
    (∀ s' t, MainGo.collectLoop wOk endT cycles now s = .ok (s', t) →
      t = loopExit endT (cycles.map CycleIn.dur) now) := by
  refine ⟨scrapeLoop_snd wOk endT cycles now s, ?_, ?_,
    collectLoop_ok_time wOk endT cycles now s⟩
  · intro h
    rw [scrapeLoop_snd]
    exact loopExit_ge endT _ now h
  · intro hlt hM
    rw [scrapeLoop_snd]
    refine loopExit_lt endT M _ now hlt ?_
    intro d hd
    simp only [List.mem_map] at hd
    obtain ⟨c, hc, rfl⟩ := hd
    exact hM c hc

/-- C7 (witness): three 20-tick cycles against a deadline of 60 starting at
0 exit exactly at 60 — not before the deadline and within one cycle's
duration after it. -/
theorem loop_deadline_bounds_witness :
    (Refactored.scrapeLoop (fun _ => true) 60
       [⟨20, .ok ["A", "B"]⟩, ⟨20, .ok ["B", "C"]⟩, ⟨20, .ok ["C"]⟩]
       0 initState).2 = 60 ∧
    60 ≤ (Refactored.scrapeLoop (fun _ => true) 60
       [⟨20, .ok ["A", "B"]⟩, ⟨20, .ok ["B", "C"]⟩, ⟨20, .ok ["C"]⟩]
       0 initState).2 ∧
    (Refactored.scrapeLoop (fun _ => true) 60
       [⟨20, .ok ["A", "B"]⟩, ⟨20, .ok ["B", "C"]⟩, ⟨20, .ok ["C"]⟩]
       0 initState).2 < 60 + 20 := by
  have h := loop_deadline_bounds (fun _ => true) 60 20
    [⟨20, .ok ["A", "B"]⟩, ⟨20, .ok ["B", "C"]⟩, ⟨20, .ok ["C"]⟩] 0 initState
  refine ⟨?_, h.2.1 (by decide), h.2.2.1 (by decide) (by decide)⟩
  rw [h.1]
  decide

/-- C8: the Item Store `Add` — as the code realises it on the `postSet`
map — reports "newly added" exactly for an absent identity, grows the size
by one exactly then, and a second `Add` of the same identity is a no-op
reporting "already present"; `processPost` updates the store exactly as
`Add` does. -/
theorem storeAdd_idempotent (s : List String) (x : String) (wOk : Nat → Bool)
    (st : LoopState) :
    ((storeAdd s x).2 = true ↔ x ∉ s) ∧
    (storeAdd s x).1.length = (if x ∈ s then s.length else s.length + 1) ∧
    x ∈ (storeAdd s x).1 ∧
    storeAdd (storeAdd s x).1 x = ((storeAdd s x).1, false) ∧
    (processPost wOk x st).postSet = (storeAdd st.postSet x).1 := by
  refine ⟨?_, ?_, ?_, ?_, ?_⟩
  · by_cases h : x ∈ s <;> simp [storeAdd, h]
  · by_cases h : x ∈ s <;> simp [storeAdd, h]
  · by_cases h : x ∈ s <;> simp [storeAdd, h]
  · by_cases h : x ∈ s <;> simp [storeAdd, h]
  · by_cases h : x ∈ st.postSet
    · simp [processPost, storeAdd, h]
    · by_cases hw : wOk st.attempts <;> simp [processPost, storeAdd, h, hw]

/-- C9 (amended): the two `extractChannelName` functions agree on every
input whose remainder, after stripping a leading "@" and then a leading
"https://t.me/", contains at most one "/" (so on plain names, @-handles,
bare t.me URLs and one-level paths); on remainders with two or more slashes
they differ — src/main.go returns the last segment while
src/unnamed/part_000 returns everything after the first slash. -/
theorem extractChannelName_agree_single_slash (s : String)
    (h : (splitSlash (trimmedInput s.data)).length ≤ 2) :
    MainGo.extractChannelName s = Refactored.extractChannelName s := by
  unfold MainGo.extractChannelName Refactored.extractChannelName
  cases hb : breakSlash (trimmedInput s.data) with
  | none =>
    rw [breakSlash_eq_none _ hb]
    simp
  | some p =>
    obtain ⟨a, b⟩ := p
    have hsp := breakSlash_eq_some _ a b hb
    rw [hsp] at h
    rw [hsp]
    cases hs2 : splitSlash b with
    | nil => exact absurd hs2 (splitSlash_ne_nil b)
    | cons y r =>
      rw [hs2] at h
      cases r with
      | nil =>
        have hy : y = b := splitSlash_eq_singleton b y hs2
        simp [hs2, hy]
      | cons z r2 =>
        simp only [List.length_cons] at h
        omega

/-- C9 (witness): both variants map "https://t.me/x/y" to "y". -/
theorem extractChannelName_agree_witness :
    (splitSlash (trimmedInput "https://t.me/x/y".data)).length ≤ 2 ∧
    MainGo.extractChannelName "https://t.me/x/y" =
      Refactored.extractChannelName "https://t.me/x/y" :=
  ⟨by decide, extractChannelName_agree_single_slash _ (by decide)⟩

/-- C9 (counterexample): on "a/b/c" the two functions disagree — main.go
yields the last segment "c", the refactored variant yields "b/c" — so they
are not equivalent on every input. -/
theorem extractChannelName_divergence_cex :
    MainGo.extractChannelName "a/b/c" = "c" ∧
    Refactored.extractChannelName "a/b/c" = "b/c" ∧
    Refactored.extractChannelName "a/b/c" ≠ MainGo.extractChannelName "a/b/c" := by
  decide

/-- C10: in every run of either variant, each text in the file is a key of
the store (identities are marked before the write is attempted), so the
reported per-cycle count — the store's size — is at least the number of
records in the file, with file and store exactly equal whenever no append
has failed. -/
theorem file_subset_store (wOk : Nat → Bool) (hsk : Except String Unit)
    (start endT : Nat) (cycles : List CycleIn) :
    (∀ t ∈ (MainGo.run wOk hsk start endT cycles).finalState.file,
        t ∈ (MainGo.run wOk hsk start endT cycles).finalState.postSet) ∧
    (MainGo.run wOk hsk start endT cycles).finalState.file.length ≤
      (MainGo.run wOk hsk start endT cycles).finalState.postSet.length ∧
    (∀ t ∈ (Refactored.run wOk hsk start endT cycles).finalState.file,
        t ∈ (Refactored.run wOk hsk start endT cycles).finalState.postSet) ∧
    (Refactored.run wOk hsk start endT cycles).finalState.file.length ≤
      (Refactored.run wOk hsk start endT cycles).finalState.postSet.length ∧
    ((∀ n, wOk n = true) →
      (MainGo.run wOk hsk start endT cycles).finalState.file =
        (MainGo.run wOk hsk start endT cycles).finalState.postSet ∧
      (Refactored.run wOk hsk start endT cycles).finalState.file =
        (Refactored.run wOk hsk start endT cycles).finalState.postSet) := by
  have hm := storeInv_mainRun wOk hsk start endT cycles
  have hr := storeInv_refacRun wOk hsk start endT cycles
  exact ⟨fun t ht => hm.1.subset ht, hm.1.length_le,
    fun t ht => hr.1.subset ht, hr.1.length_le,
    fun hw => ⟨sync_mainRun wOk hw hsk start endT cycles,
      sync_refacRun wOk hw hsk start endT cycles⟩⟩

/-- C10 (witness): concrete instance — membership transfers from file to
store, and with all appends succeeding the two coincide. -/
theorem file_subset_store_witness :
    "A" ∈ (MainGo.run (fun _ => true) (.ok ()) 0 2
      [⟨1, .ok ["A"]⟩]).finalState.postSet ∧
    (Refactored.run (fun _ => true) (.ok ()) 0 2
      [⟨1, .ok ["A"]⟩]).finalState.file =
      (Refactored.run (fun _ => true) (.ok ()) 0 2
        [⟨1, .ok ["A"]⟩]).finalState.postSet := by
  have h := file_subset_store (fun _ => true) (.ok ()) 0 2 [⟨1, .ok ["A"]⟩]
  exact ⟨h.1 "A" (by decide), (h.2.2.2.2 (fun n => rfl)).2⟩

